import Mathlib

/-!
Verification of the RSA core of `algorithms_files/rsa_encryption.py`.

The Python module is shallowly embedded below.  Randomness is made explicit:
every call to `random.getrandbits` / `random.randrange` is modelled by a value
taken from an argument of the embedded function (a list of draws, or a
function giving the witness drawn in each Miller-Rabin round), so that the
claims can quantify over all possible random choices.

Python's arbitrary-precision integers are modelled by `Nat`/`Int`; Python's
`%` and `//` on `int` are floor-mod and floor-division, i.e. `Int.fmod` and
`Int.fdiv`.  Python's three-argument `pow(b, e, n)` is fast modular
exponentiation; it is embedded as `powMod` (binary exponentiation, with the
recursion depth bounded by a fuel argument so that the kernel can evaluate
it), and `powMod_eq` proves it equal to `b ^ e % n`.

Recursive Python `while` loops are embedded as structurally recursive
functions: either over the explicit list of random draws that the loop
consumes, or with a fuel argument that provably dominates the recursion
depth on every input reachable from the embedded entry points.
-/

/-! ## Python's three-argument pow -/

/-- Binary modular exponentiation, fuel-indexed; `fuel ≥ e` suffices
(the exponent at least halves in every step). -/
def powModAux : Nat → Nat → Nat → Nat → Nat
  | 0, _, _, n => 1 % n
  | fuel+1, b, e, n =>
    if e = 0 then 1 % n
    else
      let r := powModAux fuel (b * b % n) (e / 2) n
      if e % 2 = 1 then r * b % n else r

/-- Python's built-in `pow(b, e, n)` for a nonnegative base. -/
def powMod (b e n : Nat) : Nat := powModAux e b e n

theorem powModAux_eq (fuel : Nat) :
    ∀ b e n, e ≤ fuel → powModAux fuel b e n = b ^ e % n := by
  induction fuel with
  | zero =>
    intro b e n he
    have h0 : e = 0 := by omega
    subst h0
    simp [powModAux]
  | succ fuel ih =>
    intro b e n he
    by_cases he0 : e = 0
    · simp [powModAux, he0]
    · have h2 : e / 2 ≤ fuel := by omega
      have hrec : powModAux fuel (b * b % n) (e / 2) n = (b * b) ^ (e / 2) % n := by
        rw [ih _ _ _ h2, ← Nat.pow_mod]
      have hpow : (b * b) ^ (e / 2) = b ^ (2 * (e / 2)) := by
        rw [← pow_two, ← pow_mul]
      by_cases hodd : e % 2 = 1
      · have he' : 2 * (e / 2) + 1 = e := by omega
        simp only [powModAux, if_neg he0, if_pos hodd, hrec, hpow]
        rw [Nat.mod_mul_mod, ← pow_succ, he']
      · have he' : 2 * (e / 2) = e := by omega
        simp only [powModAux, if_neg he0, if_neg hodd, hrec, hpow, he']

theorem powMod_eq (b e n : Nat) : powMod b e n = b ^ e % n :=
  powModAux_eq e b e n le_rfl

theorem powMod_lt (b e : Nat) {n : Nat} (hn : 0 < n) : powMod b e n < n := by
  rw [powMod_eq]; exact Nat.mod_lt _ hn

/-! ## is_probable_prime (Miller-Rabin) -/

/-- The fixed small-prime list of `is_probable_prime`. -/
def small_primes : List Nat := [2, 3, 5, 7, 11, 13, 17, 19, 23, 29]

/-- The `for prime in small_primes` loop: `some true` if an equality hit first,
`some false` if a divisibility hit first, `none` if the loop fell through. -/
def smallPrimeCheck (n : Nat) : List Nat → Option Bool
  | [] => none
  | p :: ps =>
    if n = p then some true
    else if n % p = 0 then some false
    else smallPrimeCheck n ps

/-- Fuel-indexed version of the halving loop
`r = 0; d = number - 1; while d % 2 == 0: d //= 2; r += 1`;
`fuel ≥ d` suffices.  (For `d = 0` the Python loop would diverge; it is
unreachable, since the loop runs on `number - 1` with `number ≥ 31` odd.) -/
def splitTwosAux : Nat → Nat → Nat × Nat
  | 0, d => (0, d)
  | fuel+1, d =>
    if d % 2 = 0 ∧ d ≠ 0 then
      let p := splitTwosAux fuel (d / 2)
      (p.1 + 1, p.2)
    else (0, d)

/-- Write `d₀` as `d * 2 ^ r` with `d` odd: returns `(r, d)`. -/
def splitTwos (d0 : Nat) : Nat × Nat := splitTwosAux d0 d0

/-- The inner squaring loop of one Miller-Rabin round: starting from `x`,
square modulo `n` up to `k` times, looking for `n - 1`. -/
def mrSquare (n : Nat) : Nat → Nat → Bool
  | _, 0 => false
  | x, k+1 =>
    let x2 := x * x % n
    if x2 = n - 1 then true else mrSquare n x2 k

/-- One Miller-Rabin round with witness `a` (Python: the body of
`for _ in range(rounds)`). -/
def mrRound (n d r a : Nat) : Bool :=
  let x := powMod a d n
  if x = 1 ∨ x = n - 1 then true
  else mrSquare n x (r - 1)

/-- `is_probable_prime(number, rounds)`.  `ws i` is the witness the Python code
draws with `random.randrange(2, number - 1)` in round `i`; quantifying over
`ws` quantifies over all possible random choices. -/
def is_probable_prime (number : Int) (rounds : Nat) (ws : Nat → Nat) : Bool :=
  if number < 2 then false
  else
    let n := number.toNat
    match smallPrimeCheck n small_primes with
    | some b => b
    | none =>
      let rd := splitTwos (n - 1)
      (List.range rounds).all fun i => mrRound n rd.2 rd.1 (ws i)

theorem splitTwosAux_spec (fuel : Nat) :
    ∀ d, d ≤ fuel → d = (splitTwosAux fuel d).2 * 2 ^ (splitTwosAux fuel d).1 ∧
      (d ≠ 0 → (splitTwosAux fuel d).2 % 2 = 1) := by
  induction fuel with
  | zero =>
    intro d hd
    have h0 : d = 0 := by omega
    subst h0
    simp [splitTwosAux]
  | succ fuel ih =>
    intro d hd
    by_cases h : d % 2 = 0 ∧ d ≠ 0
    · have h2 : d / 2 ≤ fuel := by omega
      obtain ⟨ih1, ih2⟩ := ih (d / 2) h2
      simp only [splitTwosAux, if_pos h]
      constructor
      · rw [pow_succ, ← mul_assoc]
        omega
      · intro _
        exact ih2 (by omega)
    · simp only [splitTwosAux, if_neg h]
      constructor
      · simp
      · intro hd0
        omega

theorem splitTwos_spec (d0 : Nat) :
    d0 = (splitTwos d0).2 * 2 ^ (splitTwos d0).1 ∧
      (d0 ≠ 0 → (splitTwos d0).2 % 2 = 1) :=
  splitTwosAux_spec d0 d0 le_rfl

/-! ## generate_random_prime -/

/-- The randomness one iteration of the `while True` loop in
`generate_random_prime` consumes: the `random.getrandbits(bits)` value and
the Miller-Rabin witnesses for the candidate it produces. -/
abbrev Draw : Type := Nat × (Nat → Nat)

/-- `candidate = random.getrandbits(bits); candidate |= (1 << (bits - 1)) | 1`. -/
def mkCandidate (bits raw : Nat) : Nat := raw ||| ((1 <<< (bits - 1)) ||| 1)

/-- The `while True` loop of `generate_random_prime` over an explicit list of
draws; `none` means the provided randomness was exhausted before a candidate
passed (the Python loop would keep drawing). -/
def grpLoop (bits : Nat) : List Draw → Option Nat
  | [] => none
  | (raw, ws) :: rest =>
    let candidate := mkCandidate bits raw
    if is_probable_prime (candidate : Int) 8 ws then some candidate
    else grpLoop bits rest

/-- `generate_random_prime(bits)`; raises ValueError when `bits < 8` before
consuming any randomness. -/
def generate_random_prime (bits : Nat) (draws : List Draw) : Except String (Option Nat) :=
  if bits < 8 then .error "Bit size must be at least 8."
  else .ok (grpLoop bits draws)

/-! ## extended_gcd and modular_inverse -/

/-- Fuel-indexed extended Euclidean algorithm; the recursion depth is bounded
by `b.natAbs` (the magnitude of the second argument strictly decreases), so
`fuel ≥ b.natAbs` suffices.  Python's `%` and `//` are `Int.fmod`/`Int.fdiv`. -/
def egcdAux : Nat → Int → Int → Int × Int × Int
  | 0, a, _ => (a, 1, 0)
  | fuel+1, a, b =>
    if b = 0 then (a, 1, 0)
    else
      let r := egcdAux fuel b (a.fmod b)
      (r.1, r.2.2, r.2.1 - (a.fdiv b) * r.2.2)

/-- `extended_gcd(a, b)`: returns `(g, x, y)` with `a*x + b*y = g`. -/
def extended_gcd (a b : Int) : Int × Int × Int := egcdAux b.natAbs a b

/-- `modular_inverse(a, m)`: the inverse of `a` modulo `m`, or ValueError. -/
def modular_inverse (a m : Int) : Except String Int :=
  let r := extended_gcd a m
  if r.1 ≠ 1 then .error "Modular inverse does not exist."
  else .ok (r.2.1.fmod m)

/-! ## generate_rsa_keys -/

/-- Fuel-indexed embedding of the fallback scan
`e = 3; while gcd(e, phi) != 1: e += 2` starting from `e`.  When some later
odd value is coprime to `phi` within `fuel` steps the scan finds the first
one; `find_e` supplies enough fuel for every `phi ≥ 1` (for `phi = 0` the
Python loop diverges; that is unreachable from `generate_rsa_keys`). -/
def eScanAux (phi : Nat) : Nat → Nat → Nat
  | 0, e => e
  | fuel+1, e => if Nat.gcd e phi = 1 then e else eScanAux phi fuel (e + 2)

/-- The value the fallback scan of `generate_rsa_keys` terminates at. -/
def find_e (phi : Nat) : Nat := eScanAux phi (phi + 1) 3

/-- The `q = generate_random_prime(bits); while q == p: q = ...` loop, one
draw list per `generate_random_prime` call. -/
def pickDistinct (bits p : Nat) : List (List Draw) → Option Nat
  | [] => none
  | d :: rest =>
    match grpLoop bits d with
    | none => none
    | some q => if q = p then pickDistinct bits p rest else some q

/-- `generate_rsa_keys(bits)`: returns `(public, private)` keys, made of the
exponent and the shared modulus.  `pDraws` feeds the `p` generation, each
element of `qDraws` feeds one `generate_random_prime` call of the `q` loop.
`.ok none` means the provided randomness ran out (the Python code would keep
drawing); the `bits < 8` ValueError of `generate_random_prime` propagates. -/
def generate_rsa_keys (bits : Nat) (pDraws : List Draw) (qDraws : List (List Draw)) :
    Except String (Option ((Int × Int) × (Int × Int))) :=
  if bits < 8 then .error "Bit size must be at least 8."
  else
    match grpLoop bits pDraws with
    | none => .ok none
    | some p =>
      match pickDistinct bits p qDraws with
      | none => .ok none
      | some q =>
        let n := p * q
        let phi := (p - 1) * (q - 1)
        let e := if Nat.gcd 65537 phi = 1 then 65537 else find_e phi
        match modular_inverse (e : Int) (phi : Int) with
        | .error msg => .error msg
        | .ok d => .ok (some (((e : Int), (n : Int)), (d, (n : Int))))

/-! ## Key validation -/

/-- `validate_public_key(public_key)`. -/
def validate_public_key (public_key : Int × Int) : Except String Bool :=
  if public_key.2 ≤ 255 then .error "RSA modulus n is too small."
  else if public_key.1 ≤ 1 then .error "Public exponent must be greater than 1."
  else .ok true

/-- `validate_private_key(private_key)`. -/
def validate_private_key (private_key : Int × Int) : Except String Bool :=
  if private_key.2 ≤ 255 then .error "RSA modulus n is too small."
  else if private_key.1 ≤ 1 then .error "Private exponent must be greater than 1."
  else .ok true

/-! ## UTF-8

`message.encode("utf-8")` and `bytes.decode("utf-8")` are CPython library
routines; they are embedded here directly.  A Python `str` that
`encode("utf-8")` accepts is a sequence of Unicode scalar values, i.e. a
`List Char`. -/

/-- The UTF-8 encoding of one scalar value (CPython's encoder). -/
def utf8EncodeChar (c : Char) : List Nat :=
  let v := c.toNat
  if v < 0x80 then [v]
  else if v < 0x800 then [0xC0 + v / 0x40, 0x80 + v % 0x40]
  else if v < 0x10000 then
    [0xE0 + v / 0x1000, 0x80 + v / 0x40 % 0x40, 0x80 + v % 0x40]
  else
    [0xF0 + v / 0x40000, 0x80 + v / 0x1000 % 0x40, 0x80 + v / 0x40 % 0x40, 0x80 + v % 0x40]

/-- `message.encode("utf-8")` as a byte list. -/
def utf8Encode : List Char → List Nat
  | [] => []
  | c :: cs => utf8EncodeChar c ++ utf8Encode cs

/-- A UTF-8 continuation byte. -/
def isCont (b : Nat) : Bool := 0x80 ≤ b && b < 0xC0

/-- Decode one UTF-8-encoded scalar value: the lead byte, the remaining
bytes; returns the scalar value and the bytes left over.  `none` on an
invalid lead byte (0x80-0xC1 covers continuation bytes and the two
always-overlong lead bytes), a missing or invalid continuation byte, an
overlong form, a surrogate, or a value above U+10FFFF - exactly the
sequences CPython's strict `bytes.decode("utf-8")` rejects. -/
def utf8DecodeOne (b0 : Nat) (bs : List Nat) : Option (Nat × List Nat) :=
  if b0 < 0x80 then some (b0, bs)
  else if b0 < 0xC2 then none
  else if b0 < 0xE0 then
    match bs with
    | b1 :: bs' =>
      if isCont b1 then some ((b0 - 0xC0) * 0x40 + (b1 - 0x80), bs') else none
    | [] => none
  else if b0 < 0xF0 then
    match bs with
    | b1 :: b2 :: bs' =>
      let v := (b0 - 0xE0) * 0x1000 + (b1 - 0x80) * 0x40 + (b2 - 0x80)
      if isCont b1 && isCont b2 && decide (0x800 ≤ v) &&
          !decide (0xD800 ≤ v ∧ v < 0xE000) then some (v, bs')
      else none
    | _ => none
  else
    match bs with
    | b1 :: b2 :: b3 :: bs' =>
      let v := (b0 - 0xF0) * 0x40000 + (b1 - 0x80) * 0x1000 + (b2 - 0x80) * 0x40 + (b3 - 0x80)
      if isCont b1 && isCont b2 && isCont b3 && decide (0x10000 ≤ v) &&
          decide (v < 0x110000) then some (v, bs')
      else none
    | _ => none

/-- The decoding loop, fuel-indexed (every scalar consumes at least one
byte, so `fuel ≥` the length of the byte list suffices). -/
def utf8DecodeAux : Nat → List Nat → Option (List Char)
  | _, [] => some []
  | 0, _ :: _ => none
  | fuel+1, b0 :: bs =>
    match utf8DecodeOne b0 bs with
    | none => none
    | some (v, bs') => (utf8DecodeAux fuel bs').map (Char.ofNat v :: ·)

/-- Strict UTF-8 decoding (CPython's `bytes.decode("utf-8")`): `none` on any
invalid byte sequence. -/
def utf8Decode (bs : List Nat) : Option (List Char) := utf8DecodeAux bs.length bs

/-! ## rsa_encrypt_message / rsa_decrypt_message -/

/-- Python's `pow(c, d, n)` for an arbitrary integer base `c` and positive
modulus `n` (reducing the base first, as modular exponentiation does, gives
the same value: `intPowMod_eq`). -/
def intPowMod (c : Int) (d : Nat) (n : Int) : Nat := powMod (c % n).toNat d n.toNat

/-- `rsa_encrypt_message(message, public_key)`.  `none` models passing
`None`; a `str` argument is a `some` of its scalar values. -/
def rsa_encrypt_message (message : Option (List Char)) (public_key : Int × Int) :
    Except String (List Nat) :=
  match validate_public_key public_key with
  | .error msg => .error msg
  | .ok _ =>
    match message with
    | none => .error "Message cannot be None."
    | some m => .ok ((utf8Encode m).map fun b => powMod b public_key.1.toNat public_key.2.toNat)

/-- `rsa_decrypt_message(cipher_list, private_key)`: computes
`pow(int(c), d, n)` for each cipher value, builds a `bytes` (which raises
ValueError when a value exceeds 255) and decodes it as UTF-8 (which raises
UnicodeDecodeError on invalid byte sequences). -/
def rsa_decrypt_message (cipher_list : Option (List Int)) (private_key : Int × Int) :
    Except String (List Char) :=
  match validate_private_key private_key with
  | .error msg => .error msg
  | .ok _ =>
    match cipher_list with
    | none => .error "Cipher data cannot be None."
    | some cs =>
      let vals := cs.map fun c => intPowMod c private_key.1.toNat private_key.2
      if vals.all (· ≤ 255) then
        match utf8Decode vals with
        | some chars => .ok chars
        | none => .error "UnicodeDecodeError: invalid utf-8"
      else .error "bytes must be in range(0, 256)"

/-! ## Facts about the embedded definitions -/

theorem smallPrimeCheck_eq_none {n : Nat} :
    ∀ {l : List Nat}, smallPrimeCheck n l = none → ∀ p ∈ l, n ≠ p ∧ n % p ≠ 0 := by
  intro l
  induction l with
  | nil => intro _ p hp; simp at hp
  | cons q l ih =>
    intro h p hp
    rw [smallPrimeCheck] at h
    by_cases h1 : n = q
    · simp [h1] at h
    · rw [if_neg h1] at h
      by_cases h2 : n % q = 0
      · simp [h2] at h
      · rw [if_neg h2] at h
        rcases List.mem_cons.mp hp with hpq | hpl
        · exact hpq ▸ ⟨h1, h2⟩
        · exact ih h p hpl

theorem mrSquare_iff (n : Nat) :
    ∀ (k x : Nat), mrSquare n x k = true ↔
      ∃ j, 1 ≤ j ∧ j ≤ k ∧ x ^ (2 ^ j) % n = n - 1 := by
  intro k
  induction k with
  | zero =>
    intro x
    simp only [mrSquare]
    constructor
    · intro h; exact absurd h (by simp)
    · rintro ⟨j, hj1, hj0, _⟩; omega
  | succ k ih =>
    intro x
    have hsh : ∀ j : Nat, (x * x % n) ^ (2 ^ j) % n = x ^ (2 ^ (j + 1)) % n := by
      intro j
      rw [← Nat.pow_mod, ← pow_two, ← pow_mul, pow_succ, Nat.mul_comm (2 ^ j) 2]
    by_cases hc : x * x % n = n - 1
    · simp only [mrSquare, if_pos hc]
      constructor
      · intro _
        refine ⟨1, le_rfl, by omega, ?_⟩
        rw [pow_one, pow_two]
        exact hc
      · intro _; trivial
    · simp only [mrSquare, if_neg hc, ih]
      constructor
      · rintro ⟨j, hj1, hjk, hj⟩
        exact ⟨j + 1, by omega, by omega, by rw [← hsh]; exact hj⟩
      · rintro ⟨j, hj1, hjk, hj⟩
        rcases Nat.lt_or_ge j 2 with hj2 | hj2
        · exfalso
          have hj1' : j = 1 := by omega
          subst hj1'
          rw [pow_one, pow_two] at hj
          exact hc hj
        · exact ⟨j - 1, by omega, by omega, by rw [hsh, Nat.sub_add_cancel (by omega)]; exact hj⟩

theorem mrRound_of_prime {p : Nat} (hp : p.Prime) {d r a : Nat}
    (hdr : p - 1 = d * 2 ^ r) (ha : a % p ≠ 0) : mrRound p d r a = true := by
  haveI : Fact p.Prime := ⟨hp⟩
  have hp2 : 2 ≤ p := hp.two_le
  have hα : (a : ZMod p) ≠ 0 := by
    rw [Ne, ZMod.natCast_zmod_eq_zero_iff_dvd]
    intro hdvd
    exact ha (Nat.mod_eq_zero_of_dvd hdvd)
  set y : ZMod p := (a : ZMod p) ^ d with hy
  have hfermat : y ^ 2 ^ r = 1 := by
    rw [hy, ← pow_mul, ← hdr]
    exact ZMod.pow_card_sub_one_eq_one hα
  have hex : ∃ j, y ^ 2 ^ j = 1 := ⟨r, hfermat⟩
  set j0 := Nat.find hex with hj0def
  have hj0 : y ^ 2 ^ j0 = 1 := Nat.find_spec hex
  have hj0r : j0 ≤ r := Nat.find_le hfermat
  have hxlt : powMod a d p < p := powMod_lt a d (by omega)
  have hxcast : ((powMod a d p : Nat) : ZMod p) = y := by
    rw [powMod_eq, hy]
    calc ((a ^ d % p : Nat) : ZMod p)
        = ((a ^ d : Nat) : ZMod p) :=
          (ZMod.natCast_eq_natCast_iff _ _ _).mpr (Nat.mod_modEq _ _)
      _ = (a : ZMod p) ^ d := by push_cast; ring
  have hcast_pred : ((p - 1 : Nat) : ZMod p) = -1 := by
    rw [Nat.cast_sub (by omega : 1 ≤ p)]
    simp [ZMod.natCast_self]
  have heq_of_cast : ∀ u v : Nat, u < p → v < p → ((u : ZMod p) = (v : ZMod p)) → u = v := by
    intro u v hu hv h
    exact Nat.ModEq.eq_of_lt_of_lt ((ZMod.natCast_eq_natCast_iff _ _ _).mp h) hu hv
  rw [mrRound]
  split
  · rfl
  · next hnot =>
    push_neg at hnot
    obtain ⟨hx1, hxp1⟩ := hnot
    -- j0 = 0 would force x = 1
    have hj0ne : j0 ≠ 0 := by
      intro h0
      apply hx1
      apply heq_of_cast _ _ hxlt (by omega)
      rw [hxcast]
      have := hj0
      rw [h0, pow_zero, pow_one] at this
      simp [this]
    -- the previous element z squares to 1 and is not 1, so it is -1
    obtain ⟨j, hjsucc⟩ : ∃ j, j0 = j + 1 := ⟨j0 - 1, by omega⟩
    set z : ZMod p := y ^ 2 ^ j with hz
    have hzsq : z * z = 1 := by
      rw [hz, ← pow_add]
      have : 2 ^ j + 2 ^ j = 2 ^ (j + 1) := by rw [pow_succ]; omega
      rw [this, ← hjsucc]
      exact hj0
    have hzne1 : z ≠ 1 := Nat.find_min hex (by omega : j < j0)
    have hzneg : z = -1 := by
      rcases mul_self_eq_one_iff.mp hzsq with h | h
      · exact absurd h hzne1
      · exact h
    -- j = 0 would force x = p - 1
    have hjne : j ≠ 0 := by
      intro h0
      apply hxp1
      apply heq_of_cast _ _ hxlt (by omega)
      rw [hxcast, hcast_pred]
      rw [h0, pow_zero, pow_one] at hz
      rw [hz] at hzneg
      exact hzneg
    -- otherwise the squaring loop reaches p - 1 at step j
    rw [mrSquare_iff]
    refine ⟨j, by omega, by omega, ?_⟩
    apply heq_of_cast _ _ (Nat.mod_lt _ (by omega)) (by omega)
    rw [hcast_pred, ← hzneg, hz]
    calc ((powMod a d p ^ 2 ^ j % p : Nat) : ZMod p)
        = ((powMod a d p ^ 2 ^ j : Nat) : ZMod p) :=
          (ZMod.natCast_eq_natCast_iff _ _ _).mpr (Nat.mod_modEq _ _)
      _ = ((powMod a d p : Nat) : ZMod p) ^ 2 ^ j := by push_cast; ring
      _ = y ^ 2 ^ j := by rw [hxcast]

theorem mkCandidate_odd (bits raw : Nat) : mkCandidate bits raw % 2 = 1 := by
  rw [Nat.mod_two_eq_one_iff_testBit_zero, mkCandidate]
  simp

theorem mkCandidate_ge (bits raw : Nat) : 2 ^ (bits - 1) ≤ mkCandidate bits raw := by
  apply Nat.le_of_testBit
  intro i hi
  rw [Nat.testBit_two_pow] at hi
  have hieq : bits - 1 = i := of_decide_eq_true hi
  rw [mkCandidate]
  simp [← hieq, Nat.one_shiftLeft, Nat.testBit_two_pow]

theorem mkCandidate_lt {bits raw : Nat} (h8 : 1 ≤ bits) (hraw : raw < 2 ^ bits) :
    mkCandidate bits raw < 2 ^ bits := by
  rw [mkCandidate]
  apply Nat.or_lt_two_pow hraw
  apply Nat.or_lt_two_pow
  · rw [Nat.one_shiftLeft]
    exact Nat.pow_lt_pow_right (by omega) (by omega)
  · exact Nat.one_lt_two_pow (by omega)

theorem grpLoop_some {bits v : Nat} :
    ∀ {draws : List Draw}, grpLoop bits draws = some v →
      v % 2 = 1 ∧ 2 ^ (bits - 1) ≤ v ∧
        ∃ dr ∈ draws, v = mkCandidate bits dr.1 ∧ is_probable_prime (v : Int) 8 dr.2 = true := by
  intro draws
  induction draws with
  | nil => intro h; simp [grpLoop] at h
  | cons dr rest ih =>
    intro h
    obtain ⟨raw, ws⟩ := dr
    rw [grpLoop] at h
    split at h
    · next hacc =>
      obtain rfl : mkCandidate bits raw = v := by injection h
      exact ⟨mkCandidate_odd _ _, mkCandidate_ge _ _,
        ⟨(raw, ws), by simp, rfl, hacc⟩⟩
    · obtain ⟨h1, h2, dr', hdr', hprop⟩ := ih h
      exact ⟨h1, h2, dr', List.mem_cons_of_mem _ hdr', hprop⟩

theorem grpLoop_some_lt {bits v : Nat} (h1 : 1 ≤ bits) :
    ∀ {draws : List Draw}, (∀ dr ∈ draws, dr.1 < 2 ^ bits) →
      grpLoop bits draws = some v → v < 2 ^ bits := by
  intro draws
  induction draws with
  | nil => intro _ h; simp [grpLoop] at h
  | cons dr rest ih =>
    intro hb h
    obtain ⟨raw, ws⟩ := dr
    rw [grpLoop] at h
    split at h
    · obtain rfl : mkCandidate bits raw = v := by injection h
      exact mkCandidate_lt h1 (hb (raw, ws) (by simp))
    · exact ih (fun d hd => hb d (List.mem_cons_of_mem _ hd)) h

theorem pickDistinct_some {bits p q : Nat} :
    ∀ {l : List (List Draw)}, pickDistinct bits p l = some q →
      q ≠ p ∧ ∃ d ∈ l, grpLoop bits d = some q := by
  intro l
  induction l with
  | nil => intro h; simp [pickDistinct] at h
  | cons d rest ih =>
    intro h
    rw [pickDistinct] at h
    split at h
    · exact absurd h (by simp)
    · next q' hq' =>
      split at h
      · obtain ⟨hne, d', hd', hg⟩ := ih h
        exact ⟨hne, d', List.mem_cons_of_mem _ hd', hg⟩
      · next hne =>
        obtain rfl : q' = q := by injection h
        exact ⟨hne, d, by simp, hq'⟩

theorem egcdAux_zero_right (fuel : Nat) (a : Int) : egcdAux fuel a 0 = (a, 1, 0) := by
  cases fuel with
  | zero => rfl
  | succ fuel => simp [egcdAux]

theorem egcdAux_bezout (fuel : Nat) : ∀ a b : Int,
    a * (egcdAux fuel a b).2.1 + b * (egcdAux fuel a b).2.2 = (egcdAux fuel a b).1 := by
  induction fuel with
  | zero => intro a b; simp [egcdAux]
  | succ fuel ih =>
    intro a b
    by_cases hb : b = 0
    · simp [egcdAux, hb]
    · have ihr := ih b (a.fmod b)
      have hm : a.fmod b = a - b * a.fdiv b := Int.fmod_def a b
      simp only [egcdAux, if_neg hb]
      linear_combination ihr - (egcdAux fuel b (a.fmod b)).2.2 * hm

theorem egcdAux_natAbs_lt {a b : Int} (hb : 0 < b) : (a.fmod b).natAbs < b.natAbs := by
  have h1 : 0 ≤ a.fmod b := Int.fmod_nonneg' a hb
  have h2 : a.fmod b < b := Int.fmod_lt_of_pos a hb
  omega

theorem egcdAux_dvd (fuel : Nat) : ∀ a b : Int, 0 ≤ b → b.natAbs ≤ fuel →
    (egcdAux fuel a b).1 ∣ a ∧ (egcdAux fuel a b).1 ∣ b := by
  induction fuel with
  | zero =>
    intro a b hb hfuel
    have h0 : b = 0 := by omega
    subst h0
    simp [egcdAux]
  | succ fuel ih =>
    intro a b hb hfuel
    by_cases hb0 : b = 0
    · subst hb0; simp [egcdAux]
    · have hbpos : 0 < b := by omega
      have h1 : 0 ≤ a.fmod b := Int.fmod_nonneg' a hbpos
      have h2 : (a.fmod b).natAbs ≤ fuel := by
        have := egcdAux_natAbs_lt (a := a) hbpos
        omega
      obtain ⟨hd1, hd2⟩ := ih b (a.fmod b) h1 h2
      simp only [egcdAux, if_neg hb0]
      refine ⟨?_, hd1⟩
      have := Int.fmod_add_fdiv a b
      calc (egcdAux fuel b (a.fmod b)).1 ∣ a.fmod b + b * a.fdiv b :=
            Dvd.dvd.add hd2 (Dvd.dvd.mul_right hd1 _)
        _ = a := this

theorem egcdAux_pos (fuel : Nat) : ∀ a b : Int, 0 < b → b.natAbs ≤ fuel →
    0 < (egcdAux fuel a b).1 := by
  induction fuel with
  | zero => intro a b hb hfuel; omega
  | succ fuel ih =>
    intro a b hb hfuel
    have hb0 : b ≠ 0 := by omega
    simp only [egcdAux, if_neg hb0]
    by_cases hr : a.fmod b = 0
    · rw [hr, egcdAux_zero_right]
      exact hb
    · have h1 : 0 ≤ a.fmod b := Int.fmod_nonneg' a hb
      have h2 : (a.fmod b).natAbs ≤ fuel := by
        have := egcdAux_natAbs_lt (a := a) hb
        omega
      exact ih b (a.fmod b) (by omega) h2

theorem extended_gcd_bezout (a b : Int) :
    a * (extended_gcd a b).2.1 + b * (extended_gcd a b).2.2 = (extended_gcd a b).1 :=
  egcdAux_bezout _ a b

theorem extended_gcd_dvd {a b : Int} (hb : 0 ≤ b) :
    (extended_gcd a b).1 ∣ a ∧ (extended_gcd a b).1 ∣ b :=
  egcdAux_dvd _ a b hb le_rfl

theorem extended_gcd_pos {a b : Int} (hb : 0 < b) : 0 < (extended_gcd a b).1 :=
  egcdAux_pos _ a b hb le_rfl

theorem extended_gcd_fst_eq_one_iff {a m : Int} (hm : 0 < m) :
    (extended_gcd a m).1 = 1 ↔ Int.gcd a m = 1 := by
  constructor
  · intro h1
    have hbez := extended_gcd_bezout a m
    rw [h1] at hbez
    have hdvd : ((Int.gcd a m : Nat) : Int) ∣ 1 := by
      rw [← hbez]
      exact Dvd.dvd.add (Dvd.dvd.mul_right Int.gcd_dvd_left _)
        (Dvd.dvd.mul_right Int.gcd_dvd_right _)
    have := Int.eq_one_of_dvd_one (by positivity) hdvd
    exact_mod_cast this
  · intro hgcd
    obtain ⟨hda, hdm⟩ := extended_gcd_dvd (a := a) (b := m) (by omega)
    have hdg : (extended_gcd a m).1 ∣ ((Int.gcd a m : Nat) : Int) := Int.dvd_gcd hda hdm
    rw [hgcd] at hdg
    exact Int.eq_one_of_dvd_one (le_of_lt (extended_gcd_pos hm)) (by exact_mod_cast hdg)

theorem modular_inverse_ok {a m d : Int} (hm : 0 < m) (h : modular_inverse a m = .ok d) :
    0 ≤ d ∧ d < m ∧ a * d ≡ 1 [ZMOD m] := by
  rw [modular_inverse] at h
  split at h
  · exact absurd h (by simp)
  · next hg =>
    have hg1 : (extended_gcd a m).1 = 1 := by
      by_contra hne
      exact hg (by simpa using hne)
    obtain rfl : (extended_gcd a m).2.1.fmod m = d := by injection h
    refine ⟨Int.fmod_nonneg' _ hm, Int.fmod_lt_of_pos _ hm, ?_⟩
    have hbez := extended_gcd_bezout a m
    rw [hg1] at hbez
    have hx : a * (extended_gcd a m).2.1 ≡ 1 [ZMOD m] := by
      rw [Int.ModEq]
      have : (1 : Int) - a * (extended_gcd a m).2.1 = m * (extended_gcd a m).2.2 := by
        linear_combination -hbez
      calc a * (extended_gcd a m).2.1 % m
          = (a * (extended_gcd a m).2.1 + m * (extended_gcd a m).2.2) % m := by
            rw [Int.add_mul_emod_self_left]
        _ = 1 % m := by rw [hbez]
    have hd : (extended_gcd a m).2.1.fmod m ≡ (extended_gcd a m).2.1 [ZMOD m] := by
      rw [Int.fmod_eq_emod _ (by omega)]
      exact Int.emod_emod_of_dvd _ dvd_rfl
    calc a * (extended_gcd a m).2.1.fmod m
        ≡ a * (extended_gcd a m).2.1 [ZMOD m] := hd.mul_left a
      _ ≡ 1 [ZMOD m] := hx

theorem modular_inverse_error_iff {a m : Int} (hm : 0 < m) :
    (∃ msg, modular_inverse a m = .error msg) ↔ Int.gcd a m ≠ 1 := by
  rw [modular_inverse]
  constructor
  · rintro ⟨msg, hmsg⟩
    split at hmsg
    · next hg =>
      intro hgcd
      exact hg ((extended_gcd_fst_eq_one_iff hm).mpr hgcd)
    · exact absurd hmsg (by simp)
  · intro hgcd
    rw [if_pos]
    · exact ⟨_, rfl⟩
    · simp only [Ne, extended_gcd_fst_eq_one_iff hm]
      exact hgcd

theorem eScanAux_spec (phi : Nat) : ∀ (fuel e : Nat),
    (∃ k, k ≤ fuel ∧ Nat.gcd (e + 2 * k) phi = 1) →
    Nat.gcd (eScanAux phi (fuel + 1) e) phi = 1 ∧
      (∃ j, eScanAux phi (fuel + 1) e = e + 2 * j) ∧
      ∀ j, e + 2 * j < eScanAux phi (fuel + 1) e → Nat.gcd (e + 2 * j) phi ≠ 1 := by
  intro fuel
  induction fuel with
  | zero =>
    intro e hex
    obtain ⟨k, hk0, hk⟩ := hex
    obtain rfl : k = 0 := by omega
    simp only [Nat.mul_zero, Nat.add_zero] at hk
    rw [eScanAux, if_pos hk]
    exact ⟨hk, ⟨0, by omega⟩, fun j hj => by omega⟩
  | succ fuel ih =>
    intro e hex
    by_cases hk0 : Nat.gcd e phi = 1
    · rw [eScanAux, if_pos hk0]
      exact ⟨hk0, ⟨0, by omega⟩, fun j hj => by omega⟩
    · rw [eScanAux, if_neg hk0]
      obtain ⟨k, hkle, hk⟩ := hex
      have hkne : k ≠ 0 := by
        intro h0
        rw [h0, Nat.mul_zero, Nat.add_zero] at hk
        exact hk0 hk
      obtain ⟨hg, ⟨j, hjeq⟩, hmin⟩ := ih (e + 2)
        ⟨k - 1, by omega, by rw [show e + 2 + 2 * (k - 1) = e + 2 * k by omega]; exact hk⟩
      refine ⟨hg, ⟨j + 1, by omega⟩, ?_⟩
      intro j' hj'
      cases j' with
      | zero => simpa using hk0
      | succ j'' =>
        have := hmin j'' (by omega)
        rw [show e + 2 + 2 * j'' = e + 2 * (j'' + 1) by omega] at this
        exact this

theorem exists_coprime_scan {phi : Nat} (hphi : 1 ≤ phi) :
    ∃ k, k ≤ phi ∧ Nat.gcd (3 + 2 * k) phi = 1 := by
  rcases Nat.lt_or_ge phi 3 with h3 | h3
  · interval_cases phi
    · exact ⟨0, by omega, by decide⟩
    · exact ⟨0, by omega, by decide⟩
  · by_cases hodd : phi % 2 = 1
    · refine ⟨(phi - 1) / 2, by omega, ?_⟩
      rw [show 3 + 2 * ((phi - 1) / 2) = 2 + phi by omega, Nat.gcd_add_self_left]
      exact Nat.coprime_two_left.mpr (Nat.odd_iff.mpr hodd)
    · refine ⟨(phi - 4) / 2, by omega, ?_⟩
      rw [show 3 + 2 * ((phi - 4) / 2) = phi - 1 by omega]
      have : phi = 1 + (phi - 1) := by omega
      calc Nat.gcd (phi - 1) phi = Nat.gcd (phi - 1) (1 + (phi - 1)) := by rw [← this]
        _ = Nat.gcd (phi - 1) 1 := Nat.gcd_add_self_right _ _
        _ = 1 := Nat.gcd_one_right _

/-- The fallback exponent: coprime to `phi`, odd, at least 3, and minimal
among odd values at least 3 that are coprime to `phi`. -/
theorem find_e_spec {phi : Nat} (hphi : 1 ≤ phi) :
    Nat.gcd (find_e phi) phi = 1 ∧ find_e phi % 2 = 1 ∧ 3 ≤ find_e phi ∧
      ∀ e, e % 2 = 1 → 3 ≤ e → e < find_e phi → Nat.gcd e phi ≠ 1 := by
  obtain ⟨hg, ⟨j, hjeq⟩, hmin⟩ := eScanAux_spec phi phi 3 (exists_coprime_scan hphi)
  rw [find_e] at *
  refine ⟨hg, by omega, by omega, ?_⟩
  intro e he1 he3 helt
  have := hmin ((e - 3) / 2) (by omega)
  rw [show 3 + 2 * ((e - 3) / 2) = e by omega] at this
  exact this

theorem char_valid_ranges (c : Char) :
    c.toNat < 0x110000 ∧ ¬(0xD800 ≤ c.toNat ∧ c.toNat < 0xE000) := by
  have h : c.toNat < 0xD800 ∨ 0xDFFF < c.toNat ∧ c.toNat < 0x110000 := c.valid
  omega

theorem utf8EncodeChar_le (c : Char) : ∀ b ∈ utf8EncodeChar c, b ≤ 255 := by
  intro b hb
  have hv := (char_valid_ranges c).1
  rw [utf8EncodeChar] at hb
  split at hb
  · simp at hb; omega
  · split at hb
    · simp at hb
      rcases hb with h | h <;> omega
    · split at hb
      · simp at hb
        rcases hb with h | h | h <;> omega
      · simp at hb
        rcases hb with h | h | h | h <;> omega

theorem utf8DecodeOne_length {b0 v : Nat} {bs bs' : List Nat}
    (h : utf8DecodeOne b0 bs = some (v, bs')) : bs'.length ≤ bs.length := by
  rw [utf8DecodeOne.eq_def] at h
  split_ifs at h
  · simp only [Option.some.injEq, Prod.mk.injEq] at h
    obtain ⟨-, rfl⟩ := h
    exact le_rfl
  · split at h
    · split_ifs at h
      simp only [Option.some.injEq, Prod.mk.injEq] at h
      obtain ⟨-, rfl⟩ := h
      simp
    · simp at h
  · split at h
    · dsimp only at h
      split_ifs at h
      simp only [Option.some.injEq, Prod.mk.injEq] at h
      obtain ⟨-, rfl⟩ := h
      simp
      omega
    · simp at h
  · split at h
    · dsimp only at h
      split_ifs at h
      simp only [Option.some.injEq, Prod.mk.injEq] at h
      obtain ⟨-, rfl⟩ := h
      simp
      omega
    · simp at h

theorem utf8DecodeAux_congr : ∀ (f1 f2 : Nat) (bs : List Nat),
    bs.length ≤ f1 → bs.length ≤ f2 → utf8DecodeAux f1 bs = utf8DecodeAux f2 bs := by
  intro f1
  induction f1 with
  | zero =>
    intro f2 bs h1 h2
    have h0 : bs = [] := by
      cases bs with
      | nil => rfl
      | cons b bs => simp at h1
    subst h0
    cases f2 <;> rfl
  | succ f1 ih =>
    intro f2 bs h1 h2
    cases bs with
    | nil => cases f2 <;> rfl
    | cons b0 bs =>
      cases f2 with
      | zero => simp at h2
      | succ f2 =>
        simp only [utf8DecodeAux]
        cases hone : utf8DecodeOne b0 bs with
        | none => rfl
        | some p =>
          obtain ⟨v, bs'⟩ := p
          have hlen := utf8DecodeOne_length hone
          simp only [List.length_cons] at h1 h2
          dsimp only
          rw [ih f2 bs' (by omega) (by omega)]

theorem utf8DecodeOne_encodeChar (c : Char) (rest : List Nat) :
    ∃ b0 tail, utf8EncodeChar c = b0 :: tail ∧
      utf8DecodeOne b0 (tail ++ rest) = some (c.toNat, rest) := by
  obtain ⟨hlt, hsur⟩ := char_valid_ranges c
  rw [utf8EncodeChar]
  rcases Nat.lt_or_ge c.toNat 0x80 with h1 | h1
  · rw [if_pos h1]
    refine ⟨c.toNat, [], rfl, ?_⟩
    rw [utf8DecodeOne.eq_def, if_pos h1]
    simp
  · rcases Nat.lt_or_ge c.toNat 0x800 with h2 | h2
    · rw [if_neg (by omega), if_pos h2]
      refine ⟨_, _, rfl, ?_⟩
      rw [utf8DecodeOne.eq_def]
      rw [if_neg (by omega), if_neg (by omega), if_pos (by omega)]
      simp only [List.cons_append, List.nil_append]
      rw [if_pos (show isCont (0x80 + c.toNat % 0x40) = true by
        simp only [isCont, Bool.and_eq_true, decide_eq_true_eq]
        omega)]
      have harg : (0xC0 + c.toNat / 0x40 - 0xC0) * 0x40 + (0x80 + c.toNat % 0x40 - 0x80)
          = c.toNat := by omega
      rw [harg]
    · rcases Nat.lt_or_ge c.toNat 0x10000 with h3 | h3
      · rw [if_neg (by omega), if_neg (by omega), if_pos h3]
        refine ⟨_, _, rfl, ?_⟩
        rw [utf8DecodeOne.eq_def]
        rw [if_neg (by omega), if_neg (by omega), if_neg (by omega), if_pos (by omega)]
        simp only [List.cons_append, List.nil_append]
        have harg : (0xE0 + c.toNat / 0x1000 - 0xE0) * 0x1000 +
            (0x80 + c.toNat / 0x40 % 0x40 - 0x80) * 0x40 +
            (0x80 + c.toNat % 0x40 - 0x80) = c.toNat := by omega
        rw [harg]
        rw [if_pos (show _ = true by
          simp only [isCont, Bool.and_eq_true, Bool.not_eq_true', decide_eq_true_eq,
            decide_eq_false_iff_not]
          omega)]
      · rw [if_neg (by omega), if_neg (by omega), if_neg (by omega)]
        refine ⟨_, _, rfl, ?_⟩
        rw [utf8DecodeOne.eq_def]
        rw [if_neg (by omega), if_neg (by omega), if_neg (by omega), if_neg (by omega)]
        simp only [List.cons_append, List.nil_append]
        have harg : (0xF0 + c.toNat / 0x40000 - 0xF0) * 0x40000 +
            (0x80 + c.toNat / 0x1000 % 0x40 - 0x80) * 0x1000 +
            (0x80 + c.toNat / 0x40 % 0x40 - 0x80) * 0x40 +
            (0x80 + c.toNat % 0x40 - 0x80) = c.toNat := by omega
        rw [harg]
        rw [if_pos (show _ = true by
          simp only [isCont, Bool.and_eq_true, decide_eq_true_eq]
          omega)]

theorem utf8Decode_encodeChar (c : Char) (rest : List Nat) :
    utf8Decode (utf8EncodeChar c ++ rest) = (utf8Decode rest).map (c :: ·) := by
  obtain ⟨b0, tail, henc, hone⟩ := utf8DecodeOne_encodeChar c rest
  rw [utf8Decode, henc]
  simp only [List.cons_append, List.length_cons, List.length_append]
  rw [utf8DecodeAux, hone]
  dsimp only
  rw [utf8DecodeAux_congr (tail.length + rest.length) rest.length rest (by omega) le_rfl]
  rw [utf8Decode, Char.ofNat_toNat]

theorem utf8Decode_encode (m : List Char) : utf8Decode (utf8Encode m) = some m := by
  induction m with
  | nil => rfl
  | cons c cs ih =>
    rw [utf8Encode, utf8Decode_encodeChar, ih]
    rfl

theorem pow_modEq_self_of_prime {p : Nat} (hp : p.Prime) (t b : Nat) :
    b ^ (1 + t * (p - 1)) ≡ b [MOD p] := by
  haveI : Fact p.Prime := ⟨hp⟩
  rw [← ZMod.natCast_eq_natCast_iff]
  push_cast
  by_cases hb : (b : ZMod p) = 0
  · rw [hb, zero_pow (by omega)]
  · rw [pow_add, pow_one, pow_mul, ZMod.pow_card_sub_one_eq_one (pow_ne_zero t hb), mul_one]

theorem rsa_roundtrip_modEq {p q e d : Nat} (hp : p.Prime) (hq : q.Prime) (hpq : p ≠ q)
    (hed : e * d ≡ 1 [MOD (p - 1) * (q - 1)]) (hed1 : 1 ≤ e * d) (b : Nat) :
    b ^ (e * d) ≡ b [MOD p * q] := by
  have hdvd : (p - 1) * (q - 1) ∣ e * d - 1 := (Nat.modEq_iff_dvd' hed1).mp hed.symm
  have hcop : Nat.Coprime p q := (Nat.coprime_primes hp hq).mpr hpq
  rw [← Nat.modEq_and_modEq_iff_modEq_mul hcop]
  constructor
  · have hdp : (p - 1) ∣ e * d - 1 := dvd_trans (Dvd.intro _ rfl) hdvd
    obtain ⟨t, ht⟩ := hdp
    have he : e * d = 1 + (p - 1) * t := by omega
    rw [he, Nat.mul_comm (p - 1) t]
    exact pow_modEq_self_of_prime hp t b
  · have hdq : (q - 1) ∣ e * d - 1 := dvd_trans (Dvd.intro_left _ rfl) hdvd
    obtain ⟨t, ht⟩ := hdq
    have he : e * d = 1 + (q - 1) * t := by omega
    rw [he, Nat.mul_comm (q - 1) t]
    exact pow_modEq_self_of_prime hq t b

theorem intPowMod_natCast {x : Nat} (d : Nat) {n : Nat} (_hn : 0 < n) (hx : x < n) :
    intPowMod (x : Int) d (n : Int) = x ^ d % n := by
  rw [intPowMod]
  have h1 : (((x : Int) % (n : Int)).toNat) = x := by
    rw [← Int.natCast_mod]
    simp [Nat.mod_eq_of_lt hx]
  rw [h1]
  simp [powMod_eq]

theorem decrypt_encrypt_byte {p q e d n : Nat} (hp : p.Prime) (hq : q.Prime) (hpq : p ≠ q)
    (hn : n = p * q) (hed : e * d ≡ 1 [MOD (p - 1) * (q - 1)]) (hed1 : 1 ≤ e * d)
    {b : Nat} (hb : b < n) :
    intPowMod ((powMod b e n : Nat) : Int) d (n : Int) = b := by
  have hn0 : 0 < n := by omega
  rw [intPowMod_natCast d hn0 (powMod_lt b e hn0)]
  rw [powMod_eq, ← Nat.pow_mod, ← pow_mul]
  calc b ^ (e * d) % n = b % n := by
        rw [hn]
        exact rsa_roundtrip_modEq hp hq hpq hed hed1 b
    _ = b := Nat.mod_eq_of_lt hb

theorem smallPrimeCheck_some_true {n : Nat} :
    ∀ {l : List Nat}, smallPrimeCheck n l = some true → n ∈ l := by
  intro l
  induction l with
  | nil => intro h; simp [smallPrimeCheck] at h
  | cons p ps ih =>
    intro h
    rw [smallPrimeCheck] at h
    by_cases h1 : n = p
    · simp [h1]
    · rw [if_neg h1] at h
      by_cases h2 : n % p = 0
      · rw [if_pos h2] at h
        simp at h
      · rw [if_neg h2] at h
        exact List.mem_cons_of_mem _ (ih h)

theorem is_probable_prime_not_dvd {v rounds : Nat} {ws : Nat → Nat}
    (hacc : is_probable_prime (v : Int) rounds ws = true) (hv : 30 ≤ v) :
    ∀ sp ∈ small_primes, v % sp ≠ 0 := by
  rw [is_probable_prime, if_neg (by exact_mod_cast (by omega : ¬ (v : Int) < 2))] at hacc
  have htn : (v : Int).toNat = v := Int.toNat_natCast v
  rw [htn] at hacc
  dsimp only at hacc
  cases hchk : smallPrimeCheck v small_primes with
  | none => exact fun sp hsp => (smallPrimeCheck_eq_none hchk sp hsp).2
  | some b =>
    rw [hchk] at hacc
    cases b with
    | false => simp at hacc
    | true =>
      have hmem := smallPrimeCheck_some_true hchk
      simp only [small_primes, List.mem_cons, List.not_mem_nil, or_false] at hmem
      have : v ≤ 29 := by
        rcases hmem with h | h | h | h | h | h | h | h | h | h <;> omega
      omega

theorem grpLoop_facts {bits v : Nat} {draws : List Draw} (h8 : 8 ≤ bits)
    (h : grpLoop bits draws = some v) :
    v % 2 = 1 ∧ 129 ≤ v ∧ ∀ sp ∈ small_primes, v % sp ≠ 0 := by
  obtain ⟨hodd, hge, dr, _, hveq, hacc⟩ := grpLoop_some h
  have h128 : 128 ≤ v := by
    calc (128 : Nat) = 2 ^ 7 := by norm_num
      _ ≤ 2 ^ (bits - 1) := Nat.pow_le_pow_right (by norm_num) (by omega)
      _ ≤ v := hge
  have h129 : 129 ≤ v := by omega
  exact ⟨hodd, h129, is_probable_prime_not_dvd hacc (by omega)⟩

theorem not_phi_dvd_two_pow_16 {p q : Nat} (hp129 : 129 ≤ p) (hq129 : 129 ≤ q)
    (hp3 : p % 3 ≠ 0) (hq3 : q % 3 ≠ 0) (hpq : p ≠ q) :
    ¬ ((p - 1) * (q - 1) ∣ 2 ^ 16) := by
  intro hdvd
  obtain ⟨a, _, hae⟩ := (Nat.dvd_prime_pow Nat.prime_two).mp
    (dvd_trans (dvd_mul_right _ _) hdvd)
  obtain ⟨a', _, hae'⟩ := (Nat.dvd_prime_pow Nat.prime_two).mp
    (dvd_trans (dvd_mul_left _ _) hdvd)
  have ha7 : 7 ≤ a := by
    by_contra hlt
    have : 2 ^ a ≤ 2 ^ 6 := Nat.pow_le_pow_right (by norm_num) (by omega)
    have h26 : (2 : Nat) ^ 6 = 64 := by norm_num
    omega
  have ha8 : 8 ≤ a := by
    rcases Nat.eq_or_lt_of_le ha7 with h7 | h7
    · exfalso
      subst h7
      norm_num at hae
      have hp129' : p = 129 := by omega
      rw [hp129'] at hp3
      exact hp3 (by norm_num)
    · omega
  have ha7' : 7 ≤ a' := by
    by_contra hlt
    have : 2 ^ a' ≤ 2 ^ 6 := Nat.pow_le_pow_right (by norm_num) (by omega)
    have h26 : (2 : Nat) ^ 6 = 64 := by norm_num
    omega
  have ha8' : 8 ≤ a' := by
    rcases Nat.eq_or_lt_of_le ha7' with h7 | h7
    · exfalso
      subst h7
      norm_num at hae'
      have hq129' : q = 129 := by omega
      rw [hq129'] at hq3
      exact hq3 (by norm_num)
    · omega
  have hphi : (p - 1) * (q - 1) = 2 ^ (a + a') := by
    rw [hae, hae', pow_add]
  rw [hphi] at hdvd
  have hle : a + a' ≤ 16 := (Nat.pow_dvd_pow_iff_le_right (by norm_num)).mp hdvd
  have haa : a = 8 ∧ a' = 8 := by omega
  obtain ⟨h8, h8'⟩ := haa
  subst h8
  subst h8'
  norm_num at hae hae'
  exact hpq (by omega)

theorem gcd_pred_self {m : Nat} (hm : 1 ≤ m) : Nat.gcd (m - 1) m = 1 := by
  have h : m = 1 + (m - 1) := by omega
  calc Nat.gcd (m - 1) m = Nat.gcd (m - 1) (1 + (m - 1)) := by rw [← h]
    _ = Nat.gcd (m - 1) 1 := Nat.gcd_add_self_right _ _
    _ = 1 := Nat.gcd_one_right _

theorem generate_rsa_keys_inv {bits : Nat} {pDraws : List Draw} {qDraws : List (List Draw)}
    {e n d n' : Int}
    (hk : generate_rsa_keys bits pDraws qDraws = .ok (some ((e, n), (d, n')))) :
    8 ≤ bits ∧ ∃ p q : Nat,
      grpLoop bits pDraws = some p ∧ pickDistinct bits p qDraws = some q ∧
      e = ((if Nat.gcd 65537 ((p - 1) * (q - 1)) = 1 then 65537
            else find_e ((p - 1) * (q - 1)) : Nat) : Int) ∧
      n = ((p * q : Nat) : Int) ∧ n' = n ∧
      modular_inverse e (((p - 1) * (q - 1) : Nat) : Int) = .ok d := by
  rw [generate_rsa_keys] at hk
  have hbits : ¬ bits < 8 := by
    intro hlt
    rw [if_pos hlt] at hk
    exact absurd hk (by simp)
  rw [if_neg hbits] at hk
  refine ⟨by omega, ?_⟩
  cases hp : grpLoop bits pDraws with
  | none => rw [hp] at hk; exact absurd hk (by simp)
  | some p =>
    rw [hp] at hk
    dsimp only at hk
    cases hq : pickDistinct bits p qDraws with
    | none => rw [hq] at hk; exact absurd hk (by simp)
    | some q =>
      rw [hq] at hk
      dsimp only at hk
      cases hmi : modular_inverse
          ((((if Nat.gcd 65537 ((p - 1) * (q - 1)) = 1 then 65537
            else find_e ((p - 1) * (q - 1))) : Nat)) : Int)
          (((p - 1) * (q - 1) : Nat) : Int) with
      | error msg =>
        rw [hmi] at hk
        exact absurd hk (by simp)
      | ok d0 =>
        rw [hmi] at hk
        simp only [Except.ok.injEq, Option.some.injEq, Prod.mk.injEq] at hk
        obtain ⟨⟨he, hn⟩, hd, hn'⟩ := hk
        subst he
        subst hn
        subst hd
        subst hn'
        exact ⟨p, q, rfl, hq, rfl, rfl, rfl, hmi⟩

theorem keypair_core {bits : Nat} {pDraws : List Draw} {qDraws : List (List Draw)}
    {e n d n' : Int}
    (hk : generate_rsa_keys bits pDraws qDraws = .ok (some ((e, n), (d, n')))) :
    ∃ p q : Nat,
      grpLoop bits pDraws = some p ∧ pickDistinct bits p qDraws = some q ∧
      8 ≤ bits ∧ p ≠ q ∧ 129 ≤ p ∧ 129 ≤ q ∧ p % 2 = 1 ∧ q % 2 = 1 ∧
      n = ((p * q : Nat) : Int) ∧ n' = n ∧
      ∃ eN dN : Nat, e = (eN : Int) ∧ d = (dN : Int) ∧
        eN = (if Nat.gcd 65537 ((p - 1) * (q - 1)) = 1 then 65537
              else find_e ((p - 1) * (q - 1))) ∧
        2 ≤ eN ∧ 2 ≤ dN ∧ dN < (p - 1) * (q - 1) ∧
        eN * dN ≡ 1 [MOD (p - 1) * (q - 1)] := by
  obtain ⟨h8, p, q, hp, hq, he, hn, hn', hmi⟩ := generate_rsa_keys_inv hk
  obtain ⟨hpodd, hp129, hpdvd⟩ := grpLoop_facts h8 hp
  obtain ⟨hqne, qd, _, hqg⟩ := pickDistinct_some hq
  obtain ⟨hqodd, hq129, hqdvd⟩ := grpLoop_facts h8 hqg
  have hp3 : p % 3 ≠ 0 := hpdvd 3 (by simp [small_primes])
  have hq3 : q % 3 ≠ 0 := hqdvd 3 (by simp [small_primes])
  set phi := (p - 1) * (q - 1) with hphidef
  have hphi : 16384 ≤ phi := by
    have : 128 * 128 ≤ (p - 1) * (q - 1) := Nat.mul_le_mul (by omega) (by omega)
    omega
  have hphipos : (0 : Int) < ((phi : Nat) : Int) := by
    exact_mod_cast (by omega : 0 < phi)
  set eN : Nat := if Nat.gcd 65537 phi = 1 then 65537 else find_e phi with heN
  have heeq : e = (eN : Int) := he
  have heN2 : 3 ≤ eN := by
    rw [heN]
    split_ifs with hg
    · omega
    · exact (find_e_spec (by omega)).2.2.1
  obtain ⟨hd0, hdlt, hdmod⟩ := modular_inverse_ok hphipos hmi
  set dN : Nat := d.toNat with hdN
  have hdeq : d = (dN : Int) := (Int.toNat_of_nonneg hd0).symm
  have hdltN : dN < phi := by omega
  have hmodN : eN * dN ≡ 1 [MOD phi] := by
    rw [← Int.natCast_modEq_iff]
    push_cast
    rw [← hdeq, ← heeq]
    exact hdmod
  have hdN0 : dN ≠ 0 := by
    intro h0
    rw [h0, Nat.mul_zero] at hmodN
    have : phi ∣ 1 - 0 := (Nat.modEq_iff_dvd' (by omega)).mp hmodN
    have := Nat.le_of_dvd (by omega) this
    omega
  have hdN1 : dN ≠ 1 := by
    intro h1
    rw [h1, Nat.mul_one] at hmodN
    have hdvd : phi ∣ eN - 1 := (Nat.modEq_iff_dvd' (by omega)).mp hmodN.symm
    rw [heN] at hdvd
    by_cases hg : Nat.gcd 65537 phi = 1
    · rw [if_pos hg] at hdvd
      have h65536 : (65537 : Nat) - 1 = 2 ^ 16 := by norm_num
      rw [h65536] at hdvd
      exact not_phi_dvd_two_pow_16 hp129 hq129 hp3 hq3 hqne.symm hdvd
    · rw [if_neg hg] at hdvd
      obtain ⟨hgcd1, hodd, hge3, hmin⟩ := find_e_spec (show 1 ≤ phi by omega)
      have hlef : phi ≤ find_e phi - 1 := Nat.le_of_dvd (by omega) hdvd
      have hphieven : phi % 2 = 0 := by
        have h2 : 2 ∣ (p - 1) := by omega
        have : 2 ∣ phi := Dvd.dvd.mul_right h2 _
        omega
      have := hmin (phi - 1) (by omega) (by omega) (by omega)
      exact this (gcd_pred_self (by omega))
  refine ⟨p, q, hp, hq, h8, hqne.symm, hp129, hq129, hpodd, hqodd, hn, hn', eN, dN,
    heeq, hdeq, heN, by omega, by omega, hdltN, hmodN⟩

theorem validate_public_key_ok {e n : Int} (hn : 255 < n) (he : 1 < e) :
    validate_public_key (e, n) = .ok true := by
  rw [validate_public_key]
  dsimp only
  rw [if_neg (by omega), if_neg (by omega)]

theorem validate_private_key_ok {d n : Int} (hn : 255 < n) (hd : 1 < d) :
    validate_private_key (d, n) = .ok true := by
  rw [validate_private_key]
  dsimp only
  rw [if_neg (by omega), if_neg (by omega)]

theorem rsa_encrypt_eq {e n : Int} (hn : 255 < n) (he : 1 < e) (m : List Char) :
    rsa_encrypt_message (some m) (e, n) =
      .ok ((utf8Encode m).map fun b => powMod b e.toNat n.toNat) := by
  rw [rsa_encrypt_message, validate_public_key_ok hn he]

theorem rsa_decrypt_eq {d n : Int} (hn : 255 < n) (hd : 1 < d) (cs : List Int) :
    rsa_decrypt_message (some cs) (d, n) =
      if (cs.map fun c => intPowMod c d.toNat n).all (· ≤ 255) then
        match utf8Decode (cs.map fun c => intPowMod c d.toNat n) with
        | some chars => .ok chars
        | none => .error "UnicodeDecodeError: invalid utf-8"
      else .error "bytes must be in range(0, 256)" := by
  rw [rsa_decrypt_message, validate_private_key_ok hn hd]

theorem utf8Encode_le (m : List Char) : ∀ b ∈ utf8Encode m, b ≤ 255 := by
  induction m with
  | nil => intro b hb; simp [utf8Encode] at hb
  | cons c cs ih =>
    intro b hb
    rw [utf8Encode] at hb
    rcases List.mem_append.mp hb with h | h
    · exact utf8EncodeChar_le c b h
    · exact ih b h

/-! ## Claims -/

/-- C5: `generate_random_prime(bits)` raises a ValueError if and only if
`bits < 8`; in particular `generate_random_prime(4)` fails with that error
for every state of the random source, i.e. before any random draw is made. -/
theorem claim_C5 :
    (∀ (bits : Nat) (draws : List Draw),
      (∃ msg, generate_random_prime bits draws = .error msg) ↔ bits < 8) ∧
    ∀ draws : List Draw,
      generate_random_prime 4 draws = .error "Bit size must be at least 8." := by
  constructor
  · intro bits draws
    rw [generate_random_prime]
    constructor
    · rintro ⟨msg, hmsg⟩
      by_contra h
      rw [if_neg h] at hmsg
      exact absurd hmsg (by simp)
    · intro h
      rw [if_pos h]
      exact ⟨_, rfl⟩
  · intro draws
    rfl

/-- C9: both validators raise ValueError for any key with modulus at most
255 regardless of the exponent, raise ValueError when the modulus is large
enough but the exponent is at most 1, and return True otherwise. -/
theorem claim_C9 (x n : Int) :
    (n ≤ 255 →
      validate_public_key (x, n) = .error "RSA modulus n is too small." ∧
      validate_private_key (x, n) = .error "RSA modulus n is too small.") ∧
    (255 < n → x ≤ 1 →
      validate_public_key (x, n) = .error "Public exponent must be greater than 1." ∧
      validate_private_key (x, n) = .error "Private exponent must be greater than 1.") ∧
    (255 < n → 1 < x →
      validate_public_key (x, n) = .ok true ∧
      validate_private_key (x, n) = .ok true) := by
  refine ⟨fun hn => ⟨?_, ?_⟩, fun hn hx => ⟨?_, ?_⟩, fun hn hx => ⟨?_, ?_⟩⟩
  · rw [validate_public_key]; dsimp only; rw [if_pos (by omega)]
  · rw [validate_private_key]; dsimp only; rw [if_pos (by omega)]
  · rw [validate_public_key]; dsimp only; rw [if_neg (by omega), if_pos (by omega)]
  · rw [validate_private_key]; dsimp only; rw [if_neg (by omega), if_pos (by omega)]
  · exact validate_public_key_ok hn hx
  · exact validate_private_key_ok hn hx

theorem claim_C9_witness :
    validate_public_key (7, 100) = .error "RSA modulus n is too small." ∧
    validate_private_key (1, 300) = .error "Private exponent must be greater than 1." ∧
    validate_public_key (3, 256) = .ok true :=
  ⟨((claim_C9 7 100).1 (by norm_num)).1,
   (((claim_C9 1 300).2.1 (by norm_num)) (by norm_num)).2,
   (((claim_C9 3 256).2.2 (by norm_num)) (by norm_num)).1⟩

/-- C3: with a valid public key, encrypting None raises ValueError; any
message encrypts to exactly the per-byte modular powers of its UTF-8
encoding, in order; every output value is in `[0, n)`; the empty string
yields the empty list. -/
theorem claim_C3 (e n : Int) (hn : 255 < n) (he : 1 < e) :
    rsa_encrypt_message none (e, n) = .error "Message cannot be None." ∧
    (∀ m : List Char, rsa_encrypt_message (some m) (e, n) =
      .ok ((utf8Encode m).map fun b => powMod b e.toNat n.toNat)) ∧
    (∀ m : List Char, ∀ v ∈ (utf8Encode m).map fun b => powMod b e.toNat n.toNat,
      (v : Int) < n ∧ 0 ≤ (v : Int)) ∧
    (∀ (m : List Char) (i : Nat),
      ((utf8Encode m).map fun b => powMod b e.toNat n.toNat)[i]? =
        ((utf8Encode m)[i]?).map fun b => powMod b e.toNat n.toNat) ∧
    rsa_encrypt_message (some []) (e, n) = .ok [] := by
  have hn0 : 0 < n.toNat := by omega
  refine ⟨?_, fun m => rsa_encrypt_eq hn he m, fun m v hv => ?_, fun m i => ?_, ?_⟩
  · rw [rsa_encrypt_message, validate_public_key_ok hn he]
  · obtain ⟨b, _, hbv⟩ := List.mem_map.mp hv
    subst hbv
    have h1 : powMod b e.toNat n.toNat < n.toNat := powMod_lt _ _ hn0
    constructor
    · calc ((powMod b e.toNat n.toNat : Nat) : Int) < (n.toNat : Int) := by exact_mod_cast h1
        _ = n := Int.toNat_of_nonneg (by omega)
    · positivity
  · exact List.getElem?_map ..
  · rw [rsa_encrypt_eq hn he]
    rfl

theorem claim_C3_witness :
    rsa_encrypt_message none (3, 256) = .error "Message cannot be None." ∧
    rsa_encrypt_message (some []) (3, 256) = .ok [] :=
  ⟨(claim_C3 3 256 (by norm_num) (by norm_num)).1,
   (claim_C3 3 256 (by norm_num) (by norm_num)).2.2.2.2⟩

/-- C2: with a valid private key, decrypting None raises ValueError; an
empty cipher list decrypts to the empty string; whenever some cipher value
decrypts to a byte value above 255 the call raises the `bytes` range error
(no silent wrapping), and whenever the byte values do not form valid UTF-8
the call raises a decode error. -/
theorem claim_C2 (d n : Int) (hn : 255 < n) (hd : 1 < d) :
    rsa_decrypt_message none (d, n) = .error "Cipher data cannot be None." ∧
    rsa_decrypt_message (some []) (d, n) = .ok [] ∧
    (∀ cs : List Int, (∃ c ∈ cs, 255 < intPowMod c d.toNat n) →
      rsa_decrypt_message (some cs) (d, n) = .error "bytes must be in range(0, 256)") ∧
    (∀ cs : List Int, (∀ c ∈ cs, intPowMod c d.toNat n ≤ 255) →
      utf8Decode (cs.map fun c => intPowMod c d.toNat n) = none →
      rsa_decrypt_message (some cs) (d, n) = .error "UnicodeDecodeError: invalid utf-8") := by
  refine ⟨?_, ?_, fun cs hex => ?_, fun cs hall hdec => ?_⟩
  · rw [rsa_decrypt_message, validate_private_key_ok hn hd]
  · rw [rsa_decrypt_eq hn hd]
    rfl
  · rw [rsa_decrypt_eq hn hd]
    rw [if_neg]
    intro hall
    rw [List.all_eq_true] at hall
    obtain ⟨c, hc, hcv⟩ := hex
    have := hall _ (List.mem_map_of_mem _ hc)
    rw [decide_eq_true_eq] at this
    omega
  · rw [rsa_decrypt_eq hn hd]
    rw [if_pos, hdec]
    rw [List.all_eq_true]
    intro v hv
    obtain ⟨c, hc, hcv⟩ := List.mem_map.mp hv
    subst hcv
    rw [decide_eq_true_eq]
    exact hall c hc

theorem claim_C2_witness :
    rsa_decrypt_message none (3, 256) = .error "Cipher data cannot be None." ∧
    rsa_decrypt_message (some []) (3, 256) = .ok [] :=
  ⟨(claim_C2 3 256 (by norm_num) (by norm_num)).1,
   (claim_C2 3 256 (by norm_num) (by norm_num)).2.1⟩

/-- C8: for any modulus m > 0, `modular_inverse(a, m)` raises ValueError
exactly when gcd(a, m) is not 1, and any returned value d lies in `[0, m)`
and satisfies `a * d ≡ 1 (mod m)`. -/
theorem claim_C8 (a m : Int) (hm : 0 < m) :
    ((∃ msg, modular_inverse a m = .error msg) ↔ Int.gcd a m ≠ 1) ∧
    ∀ d, modular_inverse a m = .ok d → 0 ≤ d ∧ d < m ∧ a * d ≡ 1 [ZMOD m] :=
  ⟨modular_inverse_error_iff hm, fun _ h => modular_inverse_ok hm h⟩

theorem claim_C8_witness :
    modular_inverse 3 7 = .ok 5 ∧
    (0 ≤ (5 : Int) ∧ (5 : Int) < 7 ∧ (3 * 5 : Int) ≡ 1 [ZMOD 7]) ∧
    (∃ msg, modular_inverse 4 6 = .error msg) :=
  ⟨rfl, (claim_C8 3 7 (by norm_num)).2 5 rfl,
   (claim_C8 4 6 (by norm_num)).1.mpr (by decide)⟩

/-- C6: whenever `generate_random_prime(bits)` returns a value v (for any
sequence of draws from the random source, each getrandbits draw being below
2^bits), v is odd, has exactly `bits` binary digits, and was accepted by
`is_probable_prime`. -/
theorem claim_C6 (bits v : Nat) (draws : List Draw)
    (hdraws : ∀ dr ∈ draws, dr.1 < 2 ^ bits)
    (hv : generate_random_prime bits draws = .ok (some v)) :
    v % 2 = 1 ∧ 2 ^ (bits - 1) ≤ v ∧ v < 2 ^ bits ∧
      ∃ dr ∈ draws, v = mkCandidate bits dr.1 ∧ is_probable_prime (v : Int) 8 dr.2 = true := by
  have h8 : ¬ bits < 8 := by
    intro h
    rw [generate_random_prime, if_pos h] at hv
    exact absurd hv (by simp)
  rw [generate_random_prime, if_neg h8] at hv
  have hg : grpLoop bits draws = some v := by
    injection hv
  obtain ⟨h1, h2, dr, hdr, hveq, hacc⟩ := grpLoop_some hg
  exact ⟨h1, h2, grpLoop_some_lt (by omega) hdraws hg, dr, hdr, hveq, hacc⟩

theorem claim_C6_witness :
    (131 : Nat) % 2 = 1 ∧ 2 ^ (8 - 1) ≤ 131 ∧ 131 < 2 ^ 8 ∧
      ∃ dr ∈ [(((131 : Nat), fun _ => 2) : Draw)], 131 = mkCandidate 8 dr.1 ∧
        is_probable_prime ((131 : Nat) : Int) 8 dr.2 = true :=
  claim_C6 8 131 [(131, fun _ => 2)]
    (by
      intro dr hdr
      rw [List.mem_singleton] at hdr
      subst hdr
      norm_num)
    rfl

/-- C4: `is_probable_prime` returns False for every number below 2, returns
True for every member of the small-prime list, returns True on the prime
104729 for every choice of the random witnesses, and returns False on the
composites 100 and 561 for every choice of the random witnesses. -/
theorem claim_C4 :
    (∀ (number : Int) (rounds : Nat) (ws : Nat → Nat), number < 2 →
      is_probable_prime number rounds ws = false) ∧
    (∀ p ∈ small_primes, ∀ (rounds : Nat) (ws : Nat → Nat),
      is_probable_prime (p : Int) rounds ws = true) ∧
    (∀ (rounds : Nat) (ws : Nat → Nat), (∀ i, i < rounds → 2 ≤ ws i ∧ ws i ≤ 104727) →
      is_probable_prime 104729 rounds ws = true) ∧
    (∀ (rounds : Nat) (ws : Nat → Nat), is_probable_prime 100 rounds ws = false) ∧
    (∀ (rounds : Nat) (ws : Nat → Nat), is_probable_prime 561 rounds ws = false) := by
  refine ⟨?_, ?_, ?_, ?_, ?_⟩
  · intro number rounds ws h
    rw [is_probable_prime, if_pos h]
  · intro p hp rounds ws
    fin_cases hp <;> rfl
  · intro rounds ws hws
    rw [is_probable_prime, if_neg (by norm_num)]
    dsimp only
    have ht : (104729 : Int).toNat = 104729 := rfl
    rw [ht]
    have hspc : smallPrimeCheck 104729 small_primes = none := by decide
    rw [hspc]
    have hsplit : splitTwos (104729 - 1) = (3, 13091) := by decide
    rw [hsplit]
    rw [List.all_eq_true]
    intro i hi
    apply mrRound_of_prime (by norm_num) (by norm_num)
    obtain ⟨h2, h7⟩ := hws i (List.mem_range.mp hi)
    rw [Nat.mod_eq_of_lt (by omega)]
    omega
  · intro rounds ws
    rfl
  · intro rounds ws
    rfl

theorem claim_C4_witness :
    is_probable_prime (-7) 8 (fun _ => 2) = false ∧
    is_probable_prime 104729 8 (fun _ => 2) = true :=
  ⟨claim_C4.1 (-7) 8 (fun _ => 2) (by norm_num),
   claim_C4.2.2.1 8 (fun _ => 2) (fun i _ => by norm_num)⟩

/-- C7: whenever `generate_rsa_keys(bits)` returns a keypair, the two
generated probable primes are distinct, both keys carry the same modulus
p*q, and the public exponent is 65537 when that is coprime to phi and
otherwise the smallest odd integer at least 3 that is coprime to phi. -/
theorem claim_C7 (bits : Nat) (pDraws : List Draw) (qDraws : List (List Draw))
    (e n d n' : Int)
    (hk : generate_rsa_keys bits pDraws qDraws = .ok (some ((e, n), (d, n')))) :
    ∃ p q : Nat,
      grpLoop bits pDraws = some p ∧ pickDistinct bits p qDraws = some q ∧
      p ≠ q ∧ n = ((p * q : Nat) : Int) ∧ n' = n ∧
      (Nat.gcd 65537 ((p - 1) * (q - 1)) = 1 → e = 65537) ∧
      (Nat.gcd 65537 ((p - 1) * (q - 1)) ≠ 1 →
        ∃ eN : Nat, e = (eN : Int) ∧ eN % 2 = 1 ∧ 3 ≤ eN ∧
          Nat.gcd eN ((p - 1) * (q - 1)) = 1 ∧
          ∀ e2, e2 % 2 = 1 → 3 ≤ e2 → e2 < eN → Nat.gcd e2 ((p - 1) * (q - 1)) ≠ 1) := by
  obtain ⟨p, q, hp, hq, _, hpq, hp129, hq129, _, _, hn, hn', eN, dN, heeq, _, heNdef,
    _, _, _, _⟩ := keypair_core hk
  refine ⟨p, q, hp, hq, hpq, hn, hn', ?_, ?_⟩
  · intro hg
    rw [heeq, heNdef, if_pos hg]
    norm_num
  · intro hg
    have hphi : 1 ≤ (p - 1) * (q - 1) := by
      have : 128 * 128 ≤ (p - 1) * (q - 1) := Nat.mul_le_mul (by omega) (by omega)
      omega
    obtain ⟨hgcd1, hodd, hge3, hmin⟩ := find_e_spec hphi
    refine ⟨find_e ((p - 1) * (q - 1)), ?_, hodd, hge3, hgcd1, hmin⟩
    rw [heeq, heNdef, if_neg hg]

/-- C10: every keypair returned by `generate_rsa_keys` has modulus above
255 and both exponents above 1, so key validation succeeds on both keys,
and encryption/decryption with such keys never fail key validation. -/
theorem claim_C10 (bits : Nat) (pDraws : List Draw) (qDraws : List (List Draw))
    (e n d n' : Int)
    (hk : generate_rsa_keys bits pDraws qDraws = .ok (some ((e, n), (d, n')))) :
    255 < n ∧ 1 < e ∧ 1 < d ∧ n' = n ∧
    validate_public_key (e, n) = .ok true ∧
    validate_private_key (d, n') = .ok true ∧
    (∀ m : List Char, ∃ out, rsa_encrypt_message (some m) (e, n) = .ok out) ∧
    (∀ cs : List Int,
      rsa_decrypt_message (some cs) (d, n') ≠ .error "RSA modulus n is too small." ∧
      rsa_decrypt_message (some cs) (d, n') ≠
        .error "Private exponent must be greater than 1.") := by
  obtain ⟨p, q, hp, hq, h8, hpq, hp129, hq129, _, _, hn, hn', eN, dN, heeq, hdeq, heNdef,
    heN2, hdN2, hdlt, hmod⟩ := keypair_core hk
  have hnn : 255 < n := by
    rw [hn]
    have : 129 * 129 ≤ p * q := Nat.mul_le_mul hp129 hq129
    exact_mod_cast (by omega : (255 : Nat) < p * q)
  have hee : 1 < e := by
    rw [heeq]
    exact_mod_cast (by omega : (1 : Nat) < eN)
  have hdd : 1 < d := by
    rw [hdeq]
    exact_mod_cast (by omega : (1 : Nat) < dN)
  subst hn'
  refine ⟨hnn, hee, hdd, rfl, validate_public_key_ok hnn hee,
    validate_private_key_ok hnn hdd, fun m => ⟨_, rsa_encrypt_eq hnn hee m⟩, fun cs => ?_⟩
  rw [rsa_decrypt_eq hnn hdd]
  constructor
  · split_ifs
    · split <;> simp
    · simp
  · split_ifs
    · split <;> simp
    · simp

theorem claim_C7_witness :
    ∃ p q : Nat,
      grpLoop 8 [(131, fun _ => 2)] = some p ∧
      pickDistinct 8 p [[(137, fun _ => 2)]] = some q ∧
      p ≠ q ∧ (17947 : Int) = ((p * q : Nat) : Int) ∧ (17947 : Int) = (17947 : Int) ∧
      (Nat.gcd 65537 ((p - 1) * (q - 1)) = 1 → (65537 : Int) = 65537) ∧
      (Nat.gcd 65537 ((p - 1) * (q - 1)) ≠ 1 →
        ∃ eN : Nat, (65537 : Int) = (eN : Int) ∧ eN % 2 = 1 ∧ 3 ≤ eN ∧
          Nat.gcd eN ((p - 1) * (q - 1)) = 1 ∧
          ∀ e2, e2 % 2 = 1 → 3 ≤ e2 → e2 < eN → Nat.gcd e2 ((p - 1) * (q - 1)) ≠ 1) :=
  claim_C7 8 [(131, fun _ => 2)] [[(137, fun _ => 2)]] 65537 17947 12113 17947 rfl

theorem claim_C10_witness :
    validate_public_key (65537, 17947) = .ok true ∧
    validate_private_key (12113, 17947) = .ok true :=
  ⟨(claim_C10 8 [(131, fun _ => 2)] [[(137, fun _ => 2)]] 65537 17947 12113 17947
      rfl).2.2.2.2.1,
   (claim_C10 8 [(131, fun _ => 2)] [[(137, fun _ => 2)]] 65537 17947 12113 17947
      rfl).2.2.2.2.2.1⟩

/-- C1 (amended): for every message (including the empty string and strings
with multi-byte UTF-8 characters) and every keypair returned by
`generate_rsa_keys(bits)` whose two generated values p and q are in fact
prime, decrypting the encryption of the message returns the message.  (The
primality hypothesis is the amendment: `is_probable_prime` is probabilistic
and can accept composites, and then the round-trip can fail, see the
counterexample.) -/
theorem claim_C1_amended (bits : Nat) (pDraws : List Draw) (qDraws : List (List Draw))
    (e n d n' : Int) (p q : Nat)
    (hk : generate_rsa_keys bits pDraws qDraws = .ok (some ((e, n), (d, n'))))
    (hpl : grpLoop bits pDraws = some p) (hql : pickDistinct bits p qDraws = some q)
    (hp : p.Prime) (hq : q.Prime) (m : List Char) :
    ∃ cipher, rsa_encrypt_message (some m) (e, n) = .ok cipher ∧
      rsa_decrypt_message (some (cipher.map fun c => Int.ofNat c)) (d, n') = .ok m := by
  obtain ⟨p0, q0, hp0, hq0, h8, hpq, hp129, hq129, _, _, hn, hn', eN, dN, heeq, hdeq,
    heNdef, heN2, hdN2, hdlt, hmod⟩ := keypair_core hk
  obtain rfl : p0 = p := Option.some.inj (hp0.symm.trans hpl)
  obtain rfl : q0 = q := Option.some.inj (hq0.symm.trans hql)
  subst heeq
  subst hdeq
  subst hn'
  subst hn
  have hpq255 : 255 < p0 * q0 := by
    have : 129 * 129 ≤ p0 * q0 := Nat.mul_le_mul hp129 hq129
    omega
  have hnn : (255 : Int) < ((p0 * q0 : Nat) : Int) := by exact_mod_cast hpq255
  have hee : (1 : Int) < ((eN : Nat) : Int) := by exact_mod_cast (by omega : (1 : Nat) < eN)
  have hdd : (1 : Int) < ((dN : Nat) : Int) := by exact_mod_cast (by omega : (1 : Nat) < dN)
  have hed1 : 1 ≤ eN * dN := by
    have : 2 * 2 ≤ eN * dN := Nat.mul_le_mul (by omega) (by omega)
    omega
  refine ⟨_, rsa_encrypt_eq hnn hee m, ?_⟩
  rw [rsa_decrypt_eq hnn hdd]
  simp only [Int.toNat_natCast]
  rw [List.map_map, List.map_map]
  have hid : ∀ b ∈ utf8Encode m,
      (((fun c => intPowMod c dN ((p0 * q0 : Nat) : Int)) ∘
        fun c => Int.ofNat c) ∘ fun b => powMod b eN (p0 * q0)) b = b := by
    intro b hb
    show intPowMod ((powMod b eN (p0 * q0) : Nat) : Int) dN ((p0 * q0 : Nat) : Int) = b
    have hb255 : b ≤ 255 := utf8Encode_le m b hb
    exact decrypt_encrypt_byte hp hq hpq rfl hmod hed1 (by omega)
  rw [List.map_congr_left hid, List.map_id']
  rw [if_pos ?hall]
  case hall =>
    rw [List.all_eq_true]
    intro b hb
    rw [decide_eq_true_eq]
    exact utf8Encode_le m b hb
  rw [utf8Decode_encode]

set_option maxRecDepth 100000 in
theorem claim_C1_witness :
    (∃ cipher, rsa_encrypt_message (some [Char.ofNat 9731]) (65537, 17947) = .ok cipher ∧
      rsa_decrypt_message (some (cipher.map fun c => Int.ofNat c)) (12113, 17947) =
        .ok [Char.ofNat 9731]) ∧
    (∃ cipher, rsa_encrypt_message (some []) (65537, 17947) = .ok cipher ∧
      rsa_decrypt_message (some (cipher.map fun c => Int.ofNat c)) (12113, 17947) =
        .ok []) :=
  ⟨claim_C1_amended 8 [(131, fun _ => 2)] [[(137, fun _ => 2)]] 65537 17947 12113 17947
      131 137 rfl rfl rfl (by norm_num) (by norm_num) [Char.ofNat 9731],
   claim_C1_amended 8 [(131, fun _ => 2)] [[(137, fun _ => 2)]] 65537 17947 12113 17947
      131 137 rfl rfl rfl (by norm_num) (by norm_num) []⟩

set_option maxRecDepth 100000 in
/-- C1 counterexample: the round-trip law fails on a reachable keypair.
With bits = 21, a draw sequence on which generate_rsa_keys returns a keypair
exists (1194649 = 1093^2 is composite but every Miller-Rabin round with
witness 2 accepts it; 1048583 is prime), and decrypting the encryption of
the one-character message U+0003 with that keypair raises the bytes range
error instead of returning the message. -/
theorem claim_C1_counterexample :
    generate_rsa_keys 21 [(1194649, fun _ => 2)] [[(1048583, fun _ => 2)]] =
      .ok (some ((65537, 1252688632367), (651736390289, 1252688632367))) ∧
    rsa_encrypt_message (some [Char.ofNat 3]) (65537, 1252688632367) =
      .ok [323065981276] ∧
    rsa_decrypt_message (some [(323065981276 : Int)]) (651736390289, 1252688632367) =
      .error "bytes must be in range(0, 256)" ∧
    (1194649 : Nat) = 1093 * 1093 :=
  ⟨rfl, rfl, rfl, rfl⟩
